import Mathlib

/-!
Shallow embedding of the bigram phoneme language models of `LM_models.py`:
the count extractor, the additive-smoothing estimator (`Phoneme_LM`), the
absolute-discounting back-off estimator (`Absdisc_Phoneme_LM`), and the
evaluation layer (perplexity, surprisal, probability-mass validator).
Probabilities are modelled in `ℚ`; the real-valued evaluation layer
(base-2 logarithms and exponentiation) is modelled in `ℝ`.
-/

/-- Phoneme symbols are Python strings. -/
abbrev Phon := String

/-- A transcribed word: an ordered list of phoneme symbols. -/
abbrev Word := List Phon

/-- Python `[ipa_trans[i - 1] for i in range(1, len(ipa_trans))]`:
the unigram (history) occurrences extracted from one word. -/
def ugramsOf (w : Word) : List Phon :=
  (List.range' 1 (w.length - 1)).map (fun i => w.getD (i - 1) "")

/-- Python `[(ipa_trans[i - 1], ipa_trans[i]) for i in range(1, len(ipa_trans))]`:
the bigram occurrences extracted from one word. -/
def bgramsOf (w : Word) : List (Phon × Phon) :=
  (List.range' 1 (w.length - 1)).map (fun i => (w.getD (i - 1) "", w.getD i ""))

/-- Source `ph_Ugrams`: all unigram occurrences of the corpus, in order. -/
def ph_Ugrams (corpus : List Word) : List Phon :=
  (corpus.map ugramsOf).flatten

/-- Source `ph_Bgrams`: all bigram occurrences of the corpus, in order. -/
def ph_Bgrams (corpus : List Word) : List (Phon × Phon) :=
  (corpus.map bgramsOf).flatten

/-- Source `self.UCOUNTS = Counter(ph_Ugrams)`, looked up with default 0:
the multiplicity of `s` in the unigram occurrence list. -/
def UCOUNTS (corpus : List Word) (s : Phon) : ℕ :=
  (ph_Ugrams corpus).count s

/-- Source `self.BCOUNTS = Counter(ph_Bgrams)`, looked up with default 0:
the multiplicity of the pair `p` in the bigram occurrence list. -/
def BCOUNTS (corpus : List Word) (p : Phon × Phon) : ℕ :=
  (ph_Bgrams corpus).count p

/-- The caller's phoneme set after `__init__` ran: `self.phoneme_set`
aliases the argument, and `if unk: self.phoneme_set.add('$')`. -/
def vocabAfterInit (V : Finset Phon) (unk : Bool) : Finset Phon :=
  if unk then insert "$" V else V

/-- Source `Phoneme_LM.estimate_probs`: add-one smoothing over the model's
phoneme set `W`, `self.P[ph1][ph2] = (Nb + 1)/(Nu + L)`. -/
def addP (corpus : List Word) (W : Finset Phon) (ph1 ph2 : Phon) : ℚ :=
  ((BCOUNTS corpus (ph1, ph2) : ℚ) + 1) / ((UCOUNTS corpus ph1 : ℚ) + (W.card : ℚ))

/-- Source `P_sum = sum(self.P[ph1][ph2] for ph2 in self.phoneme_set)` from
`Phoneme_LM.test`. -/
def P_sum (W : Finset Phon) (P : Phon → Phon → ℚ) (ph1 : Phon) : ℚ :=
  ∑ ph2 in W, P ph1 ph2

-- Sanity checks (comprehension embedding agrees with expected lists).
example : ugramsOf ["#", "a", "b", "@"] = ["#", "a", "b"] := by decide
example : bgramsOf ["#", "a", "b", "@"] = [("#", "a"), ("a", "b"), ("b", "@")] := by
  decide
example : UCOUNTS [["#", "a", "b", "@"]] "a" = 1 := by decide
example : BCOUNTS [["#", "a", "b", "@"]] ("a", "b") = 1 := by decide

/-- List lookup `getD` at an in-range index is the element there. -/
theorem getD_of_lt {α : Type} (l : List α) (i : ℕ) (d : α) (h : i < l.length) :
    l.getD i d = l[i] := by
  simp [List.getD_eq_getElem?_getD, List.getElem?_eq_getElem h]

/-- The unigram comprehension drops exactly the last symbol of the word. -/
theorem ugramsOf_eq_dropLast (w : Word) : ugramsOf w = w.dropLast := by
  apply List.ext_getElem
  · simp [ugramsOf]
  · intro i h1 h2
    simp only [ugramsOf, List.getElem_map, List.getElem_range']
    rw [List.getElem_dropLast]
    have hlen : i < w.length - 1 := by
      simpa [ugramsOf] using h1
    have hi : i < w.length := lt_of_lt_of_le hlen (Nat.sub_le _ _)
    have e1 : 1 + 1 * i - 1 = i := by omega
    rw [e1, getD_of_lt _ _ _ hi]

/-- The bigram comprehension is the zip of the word with its tail. -/
theorem bgramsOf_eq_zip (w : Word) : bgramsOf w = w.zip w.tail := by
  apply List.ext_getElem
  · simp [bgramsOf]
  · intro i h1 h2
    simp only [bgramsOf, List.getElem_map, List.getElem_range', List.getElem_zip]
    have hlen : i < w.length - 1 := by
      simpa [bgramsOf] using h1
    have hi : i < w.length := lt_of_lt_of_le hlen (Nat.sub_le _ _)
    have hi1 : i + 1 < w.length := by omega
    have htl : i < w.tail.length := by
      simp only [List.length_tail]; exact hlen
    have e1 : 1 + 1 * i - 1 = i := by omega
    have e2 : 1 + 1 * i = i + 1 := by omega
    rw [List.getElem_tail, e1, e2, getD_of_lt _ _ _ hi, getD_of_lt _ _ _ hi1]

/-- Source `N = sum(self.UCOUNTS.values())`: the Counter iterates its distinct
keys, each with its count. -/
def Ntot (corpus : List Word) : ℕ :=
  ∑ p in (ph_Ugrams corpus).toFinset, UCOUNTS corpus p

/-- Source `nPlus_i = sum(1 for p in self.UCOUNTS if self.UCOUNTS[p] > 0)`:
the number of distinct Counter keys with positive unigram count. -/
def nPlus_i (corpus : List Word) : ℕ :=
  ((ph_Ugrams corpus).toFinset.filter (fun p => 0 < UCOUNTS corpus p)).card

/-- Source `nPlus_h = sum(1 for (p1, p2) in self.BCOUNTS if p1 == ph1)`:
the number of distinct bigram keys whose history is `ph1`. -/
def nPlus_h (corpus : List Word) (ph1 : Phon) : ℕ :=
  ((ph_Bgrams corpus).toFinset.filter (fun p => p.1 = ph1)).card

/-- Source `uniP = max(Ni - d, 0) / N + (Zi * (1/L))` with `Zi = (d/N)*nPlus_i`:
the discounted unigram back-off value for symbol `ph2`. -/
def uniP (corpus : List Word) (d : ℚ) (L : ℕ) (ph2 : Phon) : ℚ :=
  max ((UCOUNTS corpus ph2 : ℚ) - d) 0 / (Ntot corpus : ℚ) +
    (d / (Ntot corpus : ℚ) * (nPlus_i corpus : ℚ)) * (1 / (L : ℚ))

/-- Source `Absdisc_Phoneme_LM.estimate_probs`: per history `ph1`, either the
pure unigram fall-back (`Nh == 0`) or the discounted bigram estimate
`max(Nb - d, 0) / Nh + (Zh * uniP)` with `Zh = (d/Nh)*nPlus_h`. -/
def absP (corpus : List Word) (W : Finset Phon) (d : ℚ) (ph1 ph2 : Phon) : ℚ :=
  if UCOUNTS corpus ph1 = 0 then
    uniP corpus d W.card ph2
  else
    max ((BCOUNTS corpus (ph1, ph2) : ℚ) - d) 0 / (UCOUNTS corpus ph1 : ℚ) +
      (d / (UCOUNTS corpus ph1 : ℚ) * (nPlus_h corpus ph1 : ℚ)) * uniP corpus d W.card ph2

/-- Source `Absdisc_Phoneme_LM.__init__` / `estimate_probs` as a fallible
computation: the constructor forces `unk=True`; when the phoneme set is
non-empty and the total unigram mass is zero, the first evaluation of
`Zi = (self.d/N)*nPlus_i` raises `ZeroDivisionError`; otherwise the full
table `absP` is produced. -/
def absdiscEstimate (corpus : List Word) (V : Finset Phon) (d : ℚ) :
    Except String (Phon → Phon → ℚ) :=
  if (vocabAfterInit V true).Nonempty ∧ Ntot corpus = 0 then
    Except.error "ZeroDivisionError"
  else
    Except.ok (absP corpus (vocabAfterInit V true) d)

/-- The out-of-vocabulary check of `Phoneme_LM.perplexity`:
`if ph not in self.phoneme_set: ph = '$'`. -/
def mapOOV (W : Finset Phon) (s : Phon) : Phon :=
  if s ∈ W then s else "$"

/-- The `(ph_h, ph_i)` pairs looked up by the perplexity loop, after the
out-of-vocabulary substitution on each of the two positions. -/
def lookupPairs (W : Finset Phon) (tc : List Word) : List (Phon × Phon) :=
  (tc.map (fun w => (bgramsOf w).map (fun p => (mapOOV W p.1, mapOOV W p.2)))).flatten

/-- The evaluator's bigram total `M`: one per adjacent pair per word. -/
def Mcount (tc : List Word) : ℕ :=
  (tc.map bgramsOf).flatten.length

/-- Source `Phoneme_LM.logP`: `math.log(self.P[ph1][ph2], 2)`. -/
noncomputable def logP (P : Phon → Phon → ℚ) (ph1 ph2 : Phon) : ℝ :=
  Real.logb 2 ((P ph1 ph2 : ℚ) : ℝ)

/-- Source `Phoneme_LM.perplexity`: accumulate `logProbs` and `M` over all
bigrams of the test corpus (after out-of-vocabulary mapping), then
`PP = math.pow(2, ((-1/M)*logProbs))`; when `M = 0` the final division
`-1/M` raises `ZeroDivisionError`. -/
noncomputable def perplexity (W : Finset Phon) (P : Phon → Phon → ℚ)
    (tc : List Word) : Except String ℝ :=
  if (lookupPairs W tc).length = 0 then
    Except.error "ZeroDivisionError"
  else
    Except.ok ((2 : ℝ) ^
      ((-1 / ((lookupPairs W tc).length : ℝ)) *
        ((lookupPairs W tc).map (fun p => logP P p.1 p.2)).sum))

/-- Source `Phoneme_LM.surprisal`: `math.log(self.perplexity(test_corpus), 2)`;
an exception from `perplexity` propagates. -/
noncomputable def surprisal (W : Finset Phon) (P : Phon → Phon → ℚ)
    (tc : List Word) : Except String ℝ :=
  match perplexity W P tc with
  | Except.ok pp => Except.ok (Real.logb 2 pp)
  | Except.error e => Except.error e

-- Sanity checks for the discounting estimator on a tiny corpus.
example : Ntot [["#", "a", "b", "@"]] = 3 := by decide
example : nPlus_i [["#", "a", "b", "@"]] = 3 := by decide
example : nPlus_h [["#", "a", "b", "@"]] "a" = 1 := by decide

/-- The histories of the bigram occurrences are the unigram occurrences. -/
theorem map_fst_bgramsOf (w : Word) : (bgramsOf w).map Prod.fst = ugramsOf w := by
  rw [bgramsOf_eq_zip, ugramsOf_eq_dropLast]
  induction w with
  | nil => rfl
  | cons a t ih =>
    cases t with
    | nil => rfl
    | cons b u =>
      rw [List.tail_cons] at ih
      simp only [List.tail_cons, List.zip_cons_cons, List.map_cons]
      rw [ih]
      rfl

/-- Corpus-level version of `map_fst_bgramsOf`. -/
theorem ph_Ugrams_eq_map_fst (corpus : List Word) :
    ph_Ugrams corpus = (ph_Bgrams corpus).map Prod.fst := by
  simp only [ph_Ugrams, ph_Bgrams, List.map_flatten, List.map_map]
  congr 1
  exact List.map_congr_left (fun w _ => (map_fst_bgramsOf w).symm)

/-- A unigram history count is the number of bigram occurrences whose
first component is that symbol. -/
theorem UCOUNTS_eq_countP (corpus : List Word) (h : Phon) :
    UCOUNTS corpus h = (ph_Bgrams corpus).countP (fun p => p.1 == h) := by
  rw [UCOUNTS, ph_Ugrams_eq_map_fst, List.count, List.countP_map]
  rfl

/-- Summing the multiplicities of `(h, c)` over all `c` in a set that
contains every second component recovers the number of pairs with first
component `h`. -/
theorem sum_count_snd (W : Finset Phon) (h : Phon) (l : List (Phon × Phon))
    (hmem : ∀ p ∈ l, p.2 ∈ W) :
    ∑ c in W, l.count (h, c) = l.countP (fun p => p.1 == h) := by
  induction l with
  | nil => simp
  | cons a t ih =>
    have IH := ih (fun p hp => hmem p (List.mem_cons_of_mem a hp))
    rw [List.countP_cons]
    simp only [List.count_cons]
    rw [Finset.sum_add_distrib, IH]
    congr 1
    have ha2 : a.2 ∈ W := hmem a (List.mem_cons_self a t)
    simp only [beq_iff_eq, Prod.ext_iff]
    by_cases h1 : a.1 = h
    · simp only [h1, true_and]
      rw [Finset.sum_ite_eq W a.2 (fun _ => 1)]
      simp [ha2, h1]
    · simp [h1]

/-- A symbol occurring in a word of a vocabulary-closed corpus is in the
vocabulary. -/
abbrev corpusClosed (corpus : List Word) (W : Finset Phon) : Prop :=
  ∀ w ∈ corpus, ∀ s ∈ w, s ∈ W

/-- Both components of every bigram occurrence of a closed corpus are in
the vocabulary. -/
theorem mem_of_mem_ph_Bgrams {corpus : List Word} {W : Finset Phon}
    (hc : corpusClosed corpus W) {p : Phon × Phon} (hp : p ∈ ph_Bgrams corpus) :
    p.1 ∈ W ∧ p.2 ∈ W := by
  simp only [ph_Bgrams, List.mem_flatten, List.mem_map] at hp
  obtain ⟨l, ⟨w, hw, rfl⟩, hpl⟩ := hp
  rw [bgramsOf_eq_zip] at hpl
  have hpl2 : (p.1, p.2) ∈ w.zip w.tail := by simpa using hpl
  obtain ⟨h1, h2⟩ := List.of_mem_zip hpl2
  exact ⟨hc w hw p.1 h1, hc w hw p.2 (List.mem_of_mem_tail h2)⟩

/-- Every unigram occurrence of a closed corpus is in the vocabulary. -/
theorem mem_of_mem_ph_Ugrams {corpus : List Word} {W : Finset Phon}
    (hc : corpusClosed corpus W) {s : Phon} (hs : s ∈ ph_Ugrams corpus) :
    s ∈ W := by
  rw [ph_Ugrams_eq_map_fst] at hs
  obtain ⟨p, hp, rfl⟩ := List.mem_map.mp hs
  exact (mem_of_mem_ph_Bgrams hc hp).1

/-- For a closed corpus, the bigram counts of history `h` over the
vocabulary sum to the unigram history count of `h`. -/
theorem sum_BCOUNTS {corpus : List Word} {W : Finset Phon}
    (hc : corpusClosed corpus W) (h : Phon) :
    ∑ c in W, BCOUNTS corpus (h, c) = UCOUNTS corpus h := by
  rw [UCOUNTS_eq_countP]
  exact sum_count_snd W h (ph_Bgrams corpus)
    (fun p hp => (mem_of_mem_ph_Bgrams hc hp).2)

/-- Summing a list's multiplicities over its distinct elements gives its
length. -/
theorem sum_count_toF (l : List Phon) :
    ∑ s in l.toFinset, l.count s = l.length := by
  have h := Multiset.toFinset_sum_count_eq (l : Multiset Phon)
  simpa using h

/-- The total unigram mass is the length of the unigram occurrence list. -/
theorem Ntot_eq_length (corpus : List Word) :
    Ntot corpus = (ph_Ugrams corpus).length := by
  rw [Ntot]
  exact sum_count_toF (ph_Ugrams corpus)

/-- For a closed corpus, the unigram counts over the vocabulary sum to
the total unigram mass. -/
theorem sum_UCOUNTS {corpus : List Word} {W : Finset Phon}
    (hc : corpusClosed corpus W) :
    ∑ c in W, UCOUNTS corpus c = Ntot corpus := by
  rw [Ntot]
  apply (Finset.sum_subset _ _).symm
  · intro s hs
    exact mem_of_mem_ph_Ugrams hc (List.mem_toFinset.mp hs)
  · intro s _ hns
    exact List.count_eq_zero_of_not_mem (fun hmem => hns (List.mem_toFinset.mpr hmem))

/-- For a closed corpus, the vocabulary symbols with positive unigram
count are exactly the distinct unigram occurrences. -/
theorem nPlus_i_eq_filter {corpus : List Word} {W : Finset Phon}
    (hc : corpusClosed corpus W) :
    (W.filter (fun c => 0 < UCOUNTS corpus c)).card = nPlus_i corpus := by
  rw [nPlus_i]
  congr 1
  apply Finset.ext
  intro s
  simp only [Finset.mem_filter, List.mem_toFinset]
  constructor
  · rintro ⟨-, hpos⟩
    have hmem : s ∈ ph_Ugrams corpus := List.count_pos_iff.mp hpos
    exact ⟨hmem, hpos⟩
  · rintro ⟨hmem, hpos⟩
    exact ⟨mem_of_mem_ph_Ugrams hc hmem, hpos⟩

/-- Discounting a count vector: the discounted terms over a set sum to
the plain sum minus the discount times the number of positive entries,
whenever `0 ≤ d ≤ 1`. -/
theorem sum_max_discount (W : Finset Phon) (cnt : Phon → ℕ) (d : ℚ)
    (hd0 : 0 ≤ d) (hd1 : d ≤ 1) :
    ∑ c in W, max ((cnt c : ℚ) - d) 0 =
      (∑ c in W, (cnt c : ℚ)) - d * ((W.filter (fun c => 0 < cnt c)).card : ℚ) := by
  have hpt : ∀ c ∈ W, max ((cnt c : ℚ) - d) 0 =
      (cnt c : ℚ) - d * (if 0 < cnt c then 1 else 0) := by
    intro c _
    by_cases hc : 0 < cnt c
    · have h1 : (1 : ℚ) ≤ (cnt c : ℚ) := by
        exact_mod_cast hc
      have : (0 : ℚ) ≤ (cnt c : ℚ) - d := by linarith
      simp [hc, max_eq_left this]
    · have hc0 : cnt c = 0 := Nat.eq_zero_of_not_pos hc
      rw [hc0]
      simp only [lt_self_iff_false, if_false, Nat.cast_zero, zero_sub, mul_zero,
        sub_zero]
      exact max_eq_right (by linarith)
  rw [Finset.sum_congr rfl hpt, Finset.sum_sub_distrib, ← Finset.mul_sum]
  congr 1
  rw [Finset.sum_boole]

/-- For a closed corpus, the vocabulary symbols continuing history `h`
with positive bigram count are in bijection with the distinct bigram
keys of history `h`. -/
theorem nPlus_h_eq_filter {corpus : List Word} {W : Finset Phon}
    (hc : corpusClosed corpus W) (h : Phon) :
    (W.filter (fun c => 0 < BCOUNTS corpus (h, c))).card = nPlus_h corpus h := by
  rw [nPlus_h]
  apply Finset.card_bij (fun (c : Phon) _ => ((h, c) : Phon × Phon))
  · intro c hcmem
    simp only [Finset.mem_filter, List.mem_toFinset] at hcmem ⊢
    exact ⟨List.count_pos_iff.mp hcmem.2, trivial⟩
  · intro c1 h1 c2 h2 he
    exact congrArg Prod.snd he
  · intro p hp
    simp only [Finset.mem_filter, List.mem_toFinset] at hp
    obtain ⟨hmem, hfst⟩ := hp
    have hp2 : ((h, p.2) : Phon × Phon) = p := by
      rw [← hfst]
    refine ⟨p.2, ?_, hp2⟩
    simp only [Finset.mem_filter]
    constructor
    · exact (mem_of_mem_ph_Bgrams hc hmem).2
    · rw [BCOUNTS]
      apply List.count_pos_iff.mpr
      rw [hp2]
      exact hmem

/-- The additive-smoothing row of any vocabulary history sums to one for
a vocabulary-closed corpus. -/
theorem sum_addP {corpus : List Word} {W : Finset Phon}
    (hc : corpusClosed corpus W) {h : Phon} (hh : h ∈ W) :
    P_sum W (addP corpus W) h = 1 := by
  have hcard : 0 < W.card := Finset.card_pos.mpr ⟨h, hh⟩
  have hD : (0 : ℚ) < (UCOUNTS corpus h : ℚ) + (W.card : ℚ) := by
    have h1 : (0 : ℚ) ≤ (UCOUNTS corpus h : ℚ) := by positivity
    have h2 : (0 : ℚ) < (W.card : ℚ) := by exact_mod_cast hcard
    linarith
  rw [P_sum]
  simp only [addP]
  rw [← Finset.sum_div]
  rw [div_eq_one_iff_eq (ne_of_gt hD)]
  rw [Finset.sum_add_distrib, Finset.sum_const, nsmul_eq_mul, mul_one]
  rw [← Nat.cast_sum, sum_BCOUNTS hc]

/-- The discounted-unigram back-off distribution sums to one over the
vocabulary for a closed corpus with positive unigram mass. -/
theorem sum_uniP {corpus : List Word} {W : Finset Phon}
    (hc : corpusClosed corpus W) (hW : W.Nonempty) (hN : Ntot corpus ≠ 0)
    {d : ℚ} (hd0 : 0 ≤ d) (hd1 : d ≤ 1) :
    ∑ c in W, uniP corpus d W.card c = 1 := by
  have hNq : ((Ntot corpus : ℚ)) ≠ 0 := by exact_mod_cast hN
  have hLq : ((W.card : ℚ)) ≠ 0 := by
    exact_mod_cast Finset.card_ne_zero_of_mem hW.choose_spec
  simp only [uniP]
  rw [Finset.sum_add_distrib, Finset.sum_const, nsmul_eq_mul]
  rw [← Finset.sum_div, sum_max_discount W (UCOUNTS corpus) d hd0 hd1]
  have hU : ∑ c in W, ((UCOUNTS corpus c : ℚ)) = (Ntot corpus : ℚ) := by
    rw [← Nat.cast_sum, sum_UCOUNTS hc]
  have hF : ((W.filter (fun c => 0 < UCOUNTS corpus c)).card : ℚ) =
      (nPlus_i corpus : ℚ) := by
    exact_mod_cast congrArg Nat.cast (nPlus_i_eq_filter hc)
  rw [hU, hF]
  field_simp
  ring

/-- Every row of the absolute-discounting estimator sums to one over the
vocabulary, for a closed corpus with positive unigram mass. -/
theorem sum_absP {corpus : List Word} {W : Finset Phon}
    (hc : corpusClosed corpus W) (hW : W.Nonempty) (hN : Ntot corpus ≠ 0)
    {d : ℚ} (hd0 : 0 ≤ d) (hd1 : d ≤ 1) (h : Phon) :
    P_sum W (absP corpus W d) h = 1 := by
  rw [P_sum]
  by_cases hU : UCOUNTS corpus h = 0
  · simp only [absP, hU, if_true]
    exact sum_uniP hc hW hN hd0 hd1
  · have hUq : ((UCOUNTS corpus h : ℚ)) ≠ 0 := by exact_mod_cast hU
    simp only [absP, hU, if_false]
    rw [Finset.sum_add_distrib, ← Finset.sum_div]
    rw [sum_max_discount W (fun c => BCOUNTS corpus (h, c)) d hd0 hd1]
    rw [← Finset.mul_sum, sum_uniP hc hW hN hd0 hd1, mul_one]
    have hB : ∑ c in W, ((BCOUNTS corpus (h, c) : ℚ)) = (UCOUNTS corpus h : ℚ) := by
      rw [← Nat.cast_sum, sum_BCOUNTS hc]
    rw [hB]
    have hP : ((W.filter (fun c => 0 < BCOUNTS corpus (h, c))).card : ℚ) =
        (nPlus_h corpus h : ℚ) := by
      exact_mod_cast congrArg Nat.cast (nPlus_h_eq_filter hc h)
    rw [hP]
    field_simp

/-- The caller's vocabulary is contained in the model's phoneme set. -/
theorem subset_vocabAfterInit (V : Finset Phon) (unk : Bool) :
    V ⊆ vocabAfterInit V unk := by
  cases unk
  · simp [vocabAfterInit]
  · simp only [vocabAfterInit, if_true]
    exact Finset.subset_insert _ _

/-- The model's phoneme set with `unk` arbitrary is contained in the one
with `unk = True`. -/
theorem vocabAfterInit_subset (V : Finset Phon) (unk : Bool) :
    vocabAfterInit V unk ⊆ vocabAfterInit V true := by
  cases unk
  · simp only [vocabAfterInit, if_false, if_true]
    exact Finset.subset_insert _ _
  · exact subset_of_eq rfl

/-- A successful run of the discounting estimator has positive unigram
mass and returns the `absP` table. -/
theorem absdiscEstimate_ok {corpus : List Word} {V : Finset Phon} {d : ℚ}
    {P : Phon → Phon → ℚ}
    (habs : absdiscEstimate corpus V d = Except.ok P) :
    Ntot corpus ≠ 0 ∧ P = absP corpus (vocabAfterInit V true) d := by
  rw [absdiscEstimate] at habs
  by_cases hcond : (vocabAfterInit V true).Nonempty ∧ Ntot corpus = 0
  · rw [if_pos hcond] at habs
    exact absurd habs (by simp)
  · rw [if_neg hcond] at habs
    have hne : (vocabAfterInit V true).Nonempty := by
      simp only [vocabAfterInit, if_true]
      exact Finset.insert_nonempty _ _
    refine ⟨fun h0 => hcond ⟨hne, h0⟩, (Except.ok.inj habs).symm⟩

/-- C1: for a model fitted by either estimator variant from a corpus
whose symbols all lie in the caller's vocabulary, every history row of
the estimated distribution sums to within `1e-10` of `1`, so the
validator's assertion passes: unconditionally for the additive model,
and for every successfully fitted discounting model. -/
theorem claim_rows_sum_within_tolerance
    (corpus : List Word) (V : Finset Phon) (unk : Bool) (d : ℚ)
    (P : Phon → Phon → ℚ) (h : Phon)
    (hclosed : ∀ w ∈ corpus, ∀ s ∈ w, s ∈ V)
    (hd0 : 0 < d) (hd1 : d < 1)
    (hh : h ∈ vocabAfterInit V unk) :
    |P_sum (vocabAfterInit V unk) (addP corpus (vocabAfterInit V unk)) h - 1| <
        1 / 10 ^ 10 ∧
      (absdiscEstimate corpus V d = Except.ok P →
        |P_sum (vocabAfterInit V true) P h - 1| < 1 / 10 ^ 10) := by
  have hca : corpusClosed corpus (vocabAfterInit V unk) :=
    fun w hw s hs => subset_vocabAfterInit V unk (hclosed w hw s hs)
  constructor
  · rw [sum_addP hca hh]
    norm_num
  · intro habs
    have hct : corpusClosed corpus (vocabAfterInit V true) :=
      fun w hw s hs => subset_vocabAfterInit V true (hclosed w hw s hs)
    obtain ⟨hN, hP⟩ := absdiscEstimate_ok habs
    have hne : (vocabAfterInit V true).Nonempty := by
      simp only [vocabAfterInit, if_true]
      exact Finset.insert_nonempty _ _
    rw [hP, sum_absP hct hne hN (le_of_lt hd0) (le_of_lt hd1) h]
    norm_num

/-- C1 witness at a concrete model, exercising both conjuncts (the
discounting one through a successful fit). -/
theorem claim_rows_sum_within_tolerance_witness :
    |P_sum (vocabAfterInit {"a", "b", "#", "@"} true)
        (addP [["#", "a", "b", "@"]] (vocabAfterInit {"a", "b", "#", "@"} true))
        "a" - 1| < 1 / 10 ^ 10 ∧
      |P_sum (vocabAfterInit {"a", "b", "#", "@"} true)
        (absP [["#", "a", "b", "@"]] (vocabAfterInit {"a", "b", "#", "@"} true)
          (1 / 2)) "a" - 1| < 1 / 10 ^ 10 :=
  ⟨(claim_rows_sum_within_tolerance [["#", "a", "b", "@"]] {"a", "b", "#", "@"}
      true (1 / 2)
      (absP [["#", "a", "b", "@"]] (vocabAfterInit {"a", "b", "#", "@"} true)
        (1 / 2))
      "a" (by decide) (by norm_num) (by norm_num) (by decide)).1,
    (claim_rows_sum_within_tolerance [["#", "a", "b", "@"]] {"a", "b", "#", "@"}
      true (1 / 2)
      (absP [["#", "a", "b", "@"]] (vocabAfterInit {"a", "b", "#", "@"} true)
        (1 / 2))
      "a" (by decide) (by norm_num) (by norm_num) (by decide)).2 rfl⟩

/-- C3: the additive-smoothing estimator assigns
`(count(h,c) + 1) / (count(h) + |vocabulary|)` to every vocabulary pair,
with missing counts as zero, and every such probability is strictly
positive. -/
theorem claim_additive_formula (corpus : List Word) (V : Finset Phon)
    (unk : Bool) (h c : Phon)
    (hh : h ∈ vocabAfterInit V unk) (hcm : c ∈ vocabAfterInit V unk) :
    addP corpus (vocabAfterInit V unk) h c =
        ((BCOUNTS corpus (h, c) : ℚ) + 1) /
          ((UCOUNTS corpus h : ℚ) + ((vocabAfterInit V unk).card : ℚ)) ∧
      0 < addP corpus (vocabAfterInit V unk) h c := by
  refine ⟨rfl, ?_⟩
  rw [addP]
  apply div_pos
  · positivity
  · have h1 : (0 : ℚ) ≤ (UCOUNTS corpus h : ℚ) := by positivity
    have h2 : (0 : ℚ) < ((vocabAfterInit V unk).card : ℚ) := by
      exact_mod_cast Finset.card_pos.mpr ⟨h, hh⟩
    linarith

/-- C3 witness at a concrete model. -/
theorem claim_additive_formula_witness :
    addP [["#", "a", "b", "@"]] (vocabAfterInit {"a", "b", "#", "@"} true) "a" "b" =
        ((BCOUNTS [["#", "a", "b", "@"]] ("a", "b") : ℚ) + 1) /
          ((UCOUNTS [["#", "a", "b", "@"]] "a" : ℚ) +
            ((vocabAfterInit {"a", "b", "#", "@"} true).card : ℚ)) ∧
      0 < addP [["#", "a", "b", "@"]] (vocabAfterInit {"a", "b", "#", "@"} true)
        "a" "b" :=
  claim_additive_formula [["#", "a", "b", "@"]] {"a", "b", "#", "@"} true "a" "b"
    (by decide) (by decide)

/-- C6: on vocabulary `{a, b, #, @}` (no unknown marker, so `L = 4`) and
the single training word `# a b @`, the additive model gives
`P(b|a) = 2/5`, `P(a|a) = 1/5`, and the row of history `a` sums to `1`. -/
theorem claim_concrete_additive_scenario :
    addP [["#", "a", "b", "@"]] (vocabAfterInit {"a", "b", "#", "@"} false)
        "a" "b" = 2 / 5 ∧
      addP [["#", "a", "b", "@"]] (vocabAfterInit {"a", "b", "#", "@"} false)
        "a" "a" = 1 / 5 ∧
      P_sum (vocabAfterInit {"a", "b", "#", "@"} false)
        (addP [["#", "a", "b", "@"]] (vocabAfterInit {"a", "b", "#", "@"} false))
        "a" = 1 := by
  have hB1 : BCOUNTS [["#", "a", "b", "@"]] ("a", "b") = 1 := by decide
  have hB0 : BCOUNTS [["#", "a", "b", "@"]] ("a", "a") = 0 := by decide
  have hU : UCOUNTS [["#", "a", "b", "@"]] "a" = 1 := by decide
  have hL : (vocabAfterInit {"a", "b", "#", "@"} false).card = 4 := by decide
  refine ⟨?_, ?_, ?_⟩
  · rw [addP, hB1, hU, hL]
    norm_num
  · rw [addP, hB0, hU, hL]
    norm_num
  · exact sum_addP (by decide) (by decide)

/-- C2: the absolute-discounting estimator computes the discounted
unigram fall-back for unseen histories and the discounted bigram
estimate with back-off weight for seen histories, with missing counts
read as zero; consequently any two zero-count histories have identical
rows. -/
theorem claim_absdisc_formula (corpus : List Word) (V : Finset Phon) (d : ℚ)
    (P : Phon → Phon → ℚ) (h c h1 h2 : Phon)
    (habs : absdiscEstimate corpus V d = Except.ok P)
    (hh : h ∈ vocabAfterInit V true) (hcm : c ∈ vocabAfterInit V true)
    (hz1 : UCOUNTS corpus h1 = 0) (hz2 : UCOUNTS corpus h2 = 0) :
    (UCOUNTS corpus h = 0 →
        P h c = max ((UCOUNTS corpus c : ℚ) - d) 0 / (Ntot corpus : ℚ) +
          (d / (Ntot corpus : ℚ) * (nPlus_i corpus : ℚ)) *
            (1 / ((vocabAfterInit V true).card : ℚ))) ∧
      (0 < UCOUNTS corpus h →
        P h c = max ((BCOUNTS corpus (h, c) : ℚ) - d) 0 /
            (UCOUNTS corpus h : ℚ) +
          (d / (UCOUNTS corpus h : ℚ) * (nPlus_h corpus h : ℚ)) *
            (max ((UCOUNTS corpus c : ℚ) - d) 0 / (Ntot corpus : ℚ) +
              (d / (Ntot corpus : ℚ) * (nPlus_i corpus : ℚ)) *
                (1 / ((vocabAfterInit V true).card : ℚ)))) ∧
      P h1 c = P h2 c := by
  obtain ⟨-, hP⟩ := absdiscEstimate_ok habs
  subst hP
  refine ⟨?_, ?_, ?_⟩
  · intro hU
    simp [absP, hU, uniP]
  · intro hU
    have hne : ¬ UCOUNTS corpus h = 0 := Nat.pos_iff_ne_zero.mp hU
    simp [absP, hne, uniP]
  · simp [absP, hz1, hz2]

/-- C2 witness at a concrete model. -/
theorem claim_absdisc_formula_witness :
    (UCOUNTS [["#", "a", "b", "@"]] "a" = 0 →
        absP [["#", "a", "b", "@"]] (vocabAfterInit {"a", "b", "#", "@"} true)
            (1 / 2) "a" "b" =
          max ((UCOUNTS [["#", "a", "b", "@"]] "b" : ℚ) - 1 / 2) 0 /
              (Ntot [["#", "a", "b", "@"]] : ℚ) +
            (1 / 2 / (Ntot [["#", "a", "b", "@"]] : ℚ) *
                (nPlus_i [["#", "a", "b", "@"]] : ℚ)) *
              (1 / ((vocabAfterInit {"a", "b", "#", "@"} true).card : ℚ))) ∧
      (0 < UCOUNTS [["#", "a", "b", "@"]] "a" →
        absP [["#", "a", "b", "@"]] (vocabAfterInit {"a", "b", "#", "@"} true)
            (1 / 2) "a" "b" =
          max ((BCOUNTS [["#", "a", "b", "@"]] ("a", "b") : ℚ) - 1 / 2) 0 /
              (UCOUNTS [["#", "a", "b", "@"]] "a" : ℚ) +
            (1 / 2 / (UCOUNTS [["#", "a", "b", "@"]] "a" : ℚ) *
                (nPlus_h [["#", "a", "b", "@"]] "a" : ℚ)) *
              (max ((UCOUNTS [["#", "a", "b", "@"]] "b" : ℚ) - 1 / 2) 0 /
                  (Ntot [["#", "a", "b", "@"]] : ℚ) +
                (1 / 2 / (Ntot [["#", "a", "b", "@"]] : ℚ) *
                    (nPlus_i [["#", "a", "b", "@"]] : ℚ)) *
                  (1 / ((vocabAfterInit {"a", "b", "#", "@"} true).card : ℚ)))) ∧
      absP [["#", "a", "b", "@"]] (vocabAfterInit {"a", "b", "#", "@"} true)
          (1 / 2) "$" "b" =
        absP [["#", "a", "b", "@"]] (vocabAfterInit {"a", "b", "#", "@"} true)
          (1 / 2) "@" "b" :=
  claim_absdisc_formula [["#", "a", "b", "@"]] {"a", "b", "#", "@"} (1 / 2)
    (absP [["#", "a", "b", "@"]] (vocabAfterInit {"a", "b", "#", "@"} true) (1 / 2))
    "a" "b" "$" "@" rfl (by decide) (by decide) (by decide) (by decide)

/-- C4: the discounting estimator, constructed from an empty corpus and
the non-empty vocabulary `{a}`, stops with a `ZeroDivisionError` raised
inside `estimate_probs` when `Zi = (self.d/N)*nPlus_i` divides by the
zero total unigram mass — not with a prior input-validation error. -/
theorem claim_absdisc_empty_corpus_error :
    absdiscEstimate [] {"a"} (1 / 2) = Except.error "ZeroDivisionError" := rfl

/-- C5 counterexample: constructing with `unk=True` (the default) adds
the unknown marker to the caller's vocabulary set, so the set is
changed. -/
theorem claim_init_mutates_vocab :
    vocabAfterInit {"a"} true ≠ ({"a"} : Finset Phon) := by decide

/-- C5 amended: the corpus is only read, but with `unk=True` — forced
unconditionally by the discounting variant's constructor — the marker
`$` is inserted into the caller's aliased set, changing it whenever the
marker was absent; the set is unchanged exactly when `unk` is false
(additive variant only) or `$` was already present. -/
theorem claim_init_vocab_behavior (V : Finset Phon) (u : Bool) :
    vocabAfterInit V false = V ∧
      vocabAfterInit V true = insert "$" V ∧
      ("$" ∉ V → vocabAfterInit V true ≠ V) ∧
      (vocabAfterInit V u = V ↔ (u = false ∨ "$" ∈ V)) := by
  refine ⟨rfl, rfl, ?_, ?_⟩
  · intro hd
    simp only [vocabAfterInit, if_true]
    exact Finset.insert_ne_self.mpr hd
  · cases u
    · simp [vocabAfterInit]
    · simp only [vocabAfterInit, if_true, Finset.insert_eq_self]
      simp

/-- C5 witness at a concrete vocabulary without the marker: the set is
mutated by construction with `unk=True`. -/
theorem claim_init_vocab_behavior_witness :
    vocabAfterInit {"a"} false = {"a"} ∧
      vocabAfterInit {"a"} true = insert "$" {"a"} ∧
      ("$" ∉ ({"a"} : Finset Phon) → vocabAfterInit {"a"} true ≠ {"a"}) ∧
      (vocabAfterInit {"a"} true = {"a"} ↔
        (true = false ∨ "$" ∈ ({"a"} : Finset Phon))) :=
  claim_init_vocab_behavior {"a"} true

/-- C7: the perplexity loop checks the two positions of every bigram
against the trained phoneme set independently, replacing each
out-of-vocabulary symbol with the reserved marker `$` before lookup. -/
theorem claim_oov_mapping_independent (W : Finset Phon) (tc : List Word) :
    lookupPairs W tc =
        ((tc.map bgramsOf).flatten).map
          (fun p => (mapOOV W p.1, mapOOV W p.2)) ∧
      (∀ s ∈ W, mapOOV W s = s) ∧ (∀ s, s ∉ W → mapOOV W s = "$") := by
  refine ⟨?_, ?_, ?_⟩
  · rw [lookupPairs, List.map_flatten, List.map_map]
    rfl
  · intro s hs
    simp [mapOOV, hs]
  · intro s hs
    simp [mapOOV, hs]

/-- C7 witness: an in-vocabulary history kept, an out-of-vocabulary
current symbol remapped. -/
theorem claim_oov_mapping_independent_witness :
    lookupPairs {"a"} [["a", "b"]] =
        (([["a", "b"]].map bgramsOf).flatten).map
          (fun p => (mapOOV {"a"} p.1, mapOOV {"a"} p.2)) ∧
      mapOOV {"a"} "a" = "a" ∧ mapOOV {"a"} "b" = "$" :=
  ⟨(claim_oov_mapping_independent {"a"} [["a", "b"]]).1,
    (claim_oov_mapping_independent {"a"} [["a", "b"]]).2.1 "a" (by decide),
    (claim_oov_mapping_independent {"a"} [["a", "b"]]).2.2 "b" (by decide)⟩

/-- C8: the count extractor produces one bigram occurrence per adjacent
pair `(seq[i-1], seq[i])`, one unigram occurrence per position except
the last symbol of each word, and empty tables on an empty corpus. -/
theorem claim_count_extractor (corpus : List Word) (w : Word) (i : ℕ)
    (hlen : ∀ u ∈ corpus, 2 ≤ u.length) (hw : w ∈ corpus)
    (hi : i + 1 < w.length) :
    (bgramsOf w).length = w.length - 1 ∧
      (bgramsOf w).getD i ("", "") = (w.getD i "", w.getD (i + 1) "") ∧
      ugramsOf w = w.dropLast ∧ (ugramsOf w).length = w.length - 1 ∧
      ph_Ugrams [] = [] ∧ ph_Bgrams [] = [] := by
  have hblen : (bgramsOf w).length = w.length - 1 := by
    simp [bgramsOf]
  refine ⟨hblen, ?_, ugramsOf_eq_dropLast w, by simp [ugramsOf], rfl, rfl⟩
  have hlt : i < (bgramsOf w).length := by
    rw [hblen]
    omega
  rw [getD_of_lt _ _ _ hlt]
  simp only [bgramsOf, List.getElem_map, List.getElem_range']
  have e1 : 1 + 1 * i - 1 = i := by omega
  have e2 : 1 + 1 * i = i + 1 := by omega
  rw [e1, e2]

/-- C8 witness on a concrete three-symbol word. -/
theorem claim_count_extractor_witness :
    (bgramsOf ["a", "b", "c"]).length = (["a", "b", "c"] : Word).length - 1 ∧
      (bgramsOf ["a", "b", "c"]).getD 1 ("", "") =
        ((["a", "b", "c"] : Word).getD 1 "", (["a", "b", "c"] : Word).getD 2 "") ∧
      ugramsOf ["a", "b", "c"] = (["a", "b", "c"] : Word).dropLast ∧
      (ugramsOf ["a", "b", "c"]).length = (["a", "b", "c"] : Word).length - 1 ∧
      ph_Ugrams [] = [] ∧ ph_Bgrams [] = [] :=
  claim_count_extractor [["a", "b", "c"]] ["a", "b", "c"] 1 (by decide)
    (by decide) (by decide)

/-- The number of pairs the loop looks up is the evaluator's `M`. -/
theorem lookupPairs_length (W : Finset Phon) (tc : List Word) :
    (lookupPairs W tc).length = Mcount tc := by
  rw [lookupPairs, Mcount]
  simp only [List.length_flatten, List.map_map]
  congr 1
  apply List.map_congr_left
  intro w _
  simp

/-- C9: whenever perplexity is defined on a held-out corpus, the
surprisal returned is the base-2 logarithm of the returned perplexity,
which in turn equals the average per-bigram negative log-likelihood. -/
theorem claim_surprisal_log2_perplexity (W : Finset Phon)
    (P : Phon → Phon → ℚ) (tc : List Word)
    (hM : (lookupPairs W tc).length ≠ 0) :
    ∃ pp : ℝ, perplexity W P tc = Except.ok pp ∧
      surprisal W P tc = Except.ok (Real.logb 2 pp) ∧
      Real.logb 2 pp = (-1 / (Mcount tc : ℝ)) *
        ((lookupPairs W tc).map (fun p => logP P p.1 p.2)).sum := by
  refine ⟨(2 : ℝ) ^ ((-1 / ((lookupPairs W tc).length : ℝ)) *
    ((lookupPairs W tc).map (fun p => logP P p.1 p.2)).sum), ?_, ?_, ?_⟩
  · rw [perplexity, if_neg hM]
  · rw [surprisal, perplexity, if_neg hM]
  · rw [Real.logb_rpow (by norm_num) (by norm_num), lookupPairs_length]

/-- C9 witness on a one-bigram held-out corpus. -/
theorem claim_surprisal_log2_perplexity_witness :
    ∃ pp : ℝ, perplexity {"a"} (fun _ _ => 1) [["a", "a"]] = Except.ok pp ∧
      surprisal {"a"} (fun _ _ => 1) [["a", "a"]] = Except.ok (Real.logb 2 pp) ∧
      Real.logb 2 pp = (-1 / (Mcount [["a", "a"]] : ℝ)) *
        ((lookupPairs {"a"} [["a", "a"]]).map
          (fun p => logP (fun _ _ => 1) p.1 p.2)).sum :=
  claim_surprisal_log2_perplexity {"a"} (fun _ _ => 1) [["a", "a"]] (by decide)

/-- C10: on a held-out corpus with no bigram (empty, or all words
shorter than two symbols) the bigram total `M` stays `0` and both
perplexity and surprisal stop with the unguarded `ZeroDivisionError`
from the final `(-1/M)` step. -/
theorem claim_no_bigram_division_by_zero (W : Finset Phon)
    (P : Phon → Phon → ℚ) (tc : List Word)
    (hshort : ∀ w ∈ tc, w.length < 2) :
    Mcount tc = 0 ∧ perplexity W P tc = Except.error "ZeroDivisionError" ∧
      surprisal W P tc = Except.error "ZeroDivisionError" := by
  have hb : ∀ w ∈ tc, bgramsOf w = [] := by
    intro w hw
    have := hshort w hw
    apply List.length_eq_zero.mp
    simp only [bgramsOf, List.length_map, List.length_range']
    omega
  have hM : Mcount tc = 0 := by
    rw [Mcount, List.length_eq_zero, List.flatten_eq_nil_iff]
    intro l hl
    obtain ⟨w, hw, rfl⟩ := List.mem_map.mp hl
    exact hb w hw
  have hL : (lookupPairs W tc).length = 0 := by
    rw [lookupPairs_length]
    exact hM
  refine ⟨hM, ?_, ?_⟩
  · rw [perplexity, if_pos hL]
  · rw [surprisal, perplexity, if_pos hL]

/-- C10 witness on a corpus of an empty word and a one-symbol word. -/
theorem claim_no_bigram_division_by_zero_witness :
    Mcount [[], ["a"]] = 0 ∧
      perplexity ∅ (fun _ _ => 0) [[], ["a"]] =
        Except.error "ZeroDivisionError" ∧
      surprisal ∅ (fun _ _ => 0) [[], ["a"]] =
        Except.error "ZeroDivisionError" :=
  claim_no_bigram_division_by_zero ∅ (fun _ _ => 0) [[], ["a"]] (by decide)
